import Mathlib

/-!
Verification development for the portfolio walk-forward backtester
(`ml/portfolio_backtester.py`).  The Python modules are shallowly embedded:

* calendar dates and ticker symbols are natural numbers (only their order
  and identity matter to the properties below);
* float arithmetic is modelled exactly over `ℚ`; Python's `round(x, k)`
  (round-half-to-even) is modelled by `rhe`/`roundTo`;
* `None`/`NaN`/missing cells are `Option`;
* code that raises (`LookaheadError`, `AssertionError`) returns
  `Except String _`;
* Python dicts keyed by dates/tickers are insertion-ordered association
  lists; Python sets are duplicate-free lists (membership is all that the
  simulator reads from them, plus the size of `rebalance_trade_dates`).

Each definition mirrors one function of the source file; the doc comment
names it.  Numeric kernels that are irreducibly real-valued (the sklearn
models, the trailing-volatility weighting's std/sqrt) enter as explicit
function parameters of the definitions that call them, so every theorem
quantifies over them.
-/

/-! ## SimulationClock (portfolio_backtester.py lines 162-219)

The clock state is its `_as_of_date` field: `none` after `__init__` or
`initialize`, `some d` once `advance_to` has run.  `_all_dates` and the
violation log do not influence `advance_to`/`guard_data_access` decisions
and are not modelled. -/

/-- Model of `SimulationClock.advance_to` (lines 184-191): raises
`LookaheadError` when the clock is set and the new date is strictly
earlier, otherwise sets `_as_of_date` to the new date. -/
def SimulationClock.advance_to (as_of : Option ℕ) (d : ℕ) : Except String (Option ℕ) :=
  match as_of with
  | some a => if d < a then Except.error "LookaheadError: cannot rewind" else Except.ok (some d)
  | none => Except.ok (some d)

/-- State after one `advance_to` call, as seen by a caller that catches the
exception: on error the `_as_of_date` field is unchanged (the raise happens
before the assignment). -/
def SimulationClock.advanceStep (as_of : Option ℕ) (d : ℕ) : Option ℕ :=
  match SimulationClock.advance_to as_of d with
  | Except.ok s => s
  | Except.error _ => as_of

/-- State after a sequence of `advance_to` calls. -/
def SimulationClock.advanceSeq (as_of : Option ℕ) : List ℕ → Option ℕ
  | [] => as_of
  | d :: ds => SimulationClock.advanceSeq (SimulationClock.advanceStep as_of d) ds

/-- Model of `SimulationClock.guard_data_access` (lines 193-203): raises
`LookaheadError` when the clock is set and the requested date is strictly
after it; accepts everything while `_as_of_date is None`. -/
def SimulationClock.guard_data_access (as_of : Option ℕ) (requested : ℕ) : Except String Unit :=
  match as_of with
  | some a =>
      if a < requested then Except.error "LookaheadError: data access beyond clock"
      else Except.ok ()
  | none => Except.ok ()

/-! ## BacktestConfig (portfolio_backtester.py lines 76-128)

`config_hash` serialises `to_dict()` minus the `data_dir` and `debug`
keys with `json.dumps(..., sort_keys=True)` and hashes the string with
SHA-256 (truncated to 12 hex chars).  The byte-level serialisation and the
hash are opaque to the claims, which only concern which fields reach them;
they enter as one abstract function `H` from the sorted, popped key/value
payload to the hash string. -/

/-- A JSON-serialisable config field value (the value types that occur in
`BacktestConfig.__slots__`). -/
inductive JVal where
  | s : String → JVal
  | n : ℕ → JVal
  | q : ℚ → JVal
  | b : Bool → JVal
  | jnull : JVal
deriving DecidableEq

/-- Model of `BacktestConfig`: one field per `__slots__` entry
(lines 80-87), with Python `None` as `Option.none`. -/
structure BacktestConfig where
  tickers : String
  start_date : Option String
  end_date : Option String
  days : Option ℕ
  forward : ℕ
  rebalance : String
  top_k : ℕ
  bottom_k : ℕ
  weighting : String
  max_weight : ℚ
  max_leverage : ℚ
  cost_bps : ℕ
  slippage_bps : ℕ
  vol_window : ℕ
  target_vol_annual : ℚ
  model_type : String
  seed : ℕ
  data_dir : Option String
  debug : Bool

/-- Lift an optional string field to a JSON value. -/
def JVal.ofOptStr : Option String → JVal
  | some x => JVal.s x
  | none => JVal.jnull

/-- Lift an optional nat field to a JSON value. -/
def JVal.ofOptNat : Option ℕ → JVal
  | some x => JVal.n x
  | none => JVal.jnull

/-- Model of `BacktestConfig.to_dict` (lines 110-111): the key/value pairs
in `__slots__` order. -/
def BacktestConfig.to_dict (c : BacktestConfig) : List (String × JVal) :=
  [("tickers", JVal.s c.tickers),
   ("start_date", JVal.ofOptStr c.start_date),
   ("end_date", JVal.ofOptStr c.end_date),
   ("days", JVal.ofOptNat c.days),
   ("forward", JVal.n c.forward),
   ("rebalance", JVal.s c.rebalance),
   ("top_k", JVal.n c.top_k),
   ("bottom_k", JVal.n c.bottom_k),
   ("weighting", JVal.s c.weighting),
   ("max_weight", JVal.q c.max_weight),
   ("max_leverage", JVal.q c.max_leverage),
   ("cost_bps", JVal.n c.cost_bps),
   ("slippage_bps", JVal.n c.slippage_bps),
   ("vol_window", JVal.n c.vol_window),
   ("target_vol_annual", JVal.q c.target_vol_annual),
   ("model_type", JVal.s c.model_type),
   ("seed", JVal.n c.seed),
   ("data_dir", JVal.ofOptStr c.data_dir),
   ("debug", JVal.b c.debug)]

/-- The two `d.pop(...)` calls of `config_hash` (lines 117-118): drop the
`data_dir` and `debug` keys. -/
def popLocalKeys (d : List (String × JVal)) : List (String × JVal) :=
  d.filter (fun p => p.1 ≠ "data_dir" ∧ p.1 ≠ "debug")

/-- Lexicographic byte order on strings, as `json.dumps(sort_keys=True)`
orders object keys. -/
def charListLe : List Char → List Char → Bool
  | [], _ => true
  | _ :: _, [] => false
  | a :: as, b :: bs =>
      if a.val < b.val then true
      else if b.val < a.val then false
      else charListLe as bs

/-- Insert a pair into a key-sorted list (stable insertion). -/
def keyInsert (p : String × JVal) : List (String × JVal) → List (String × JVal)
  | [] => [p]
  | q :: qs => if charListLe p.1.data q.1.data then p :: q :: qs else q :: keyInsert p qs

/-- Sort key/value pairs by key, modelling `sort_keys=True`. -/
def sortByKey : List (String × JVal) → List (String × JVal)
  | [] => []
  | p :: ps => keyInsert p (sortByKey ps)

/-- Model of `BacktestConfig.config_hash` (lines 113-120).  `H` abstracts
`json.dumps(..., sort_keys=True, default=str)` followed by
`hashlib.sha256(...).hexdigest()[:12]` — a fixed deterministic function of
the sorted, popped payload. -/
def BacktestConfig.config_hash (H : List (String × JVal) → String) (c : BacktestConfig) : String :=
  H (sortByKey (popLocalKeys c.to_dict))

/-! ## DataProvider.load, step 4 (portfolio_backtester.py lines 366-394)

After the drop passes, `common_dates` is built from the business-day
`calendar` and the per-ticker sets of dates with a non-missing close
(`ticker_date_sets`), then filtered by the configured `start_date`,
`end_date` and `days`.  The earlier loading/ffill/drop passes only
determine those inputs, so the construction is embedded as a function of
them; the surrounding `ValueError` guards (`len < 252`, `len < 300`) abort
the run but do not alter the retained list. -/

/-- Stable insertion into a `≤`-sorted list of naturals. -/
def insertLe (d : ℕ) : List ℕ → List ℕ
  | [] => [d]
  | x :: xs => if d ≤ x then d :: x :: xs else x :: insertLe d xs

/-- Model of Python's `sorted` on naturals. -/
def sortNat : List ℕ → List ℕ
  | [] => []
  | x :: xs => insertLe x (sortNat xs)

/-- Number of surviving tickers whose date set contains `d`:
`sum(1 for s in ticker_date_sets.values() if d in s)` (line 372). -/
def countCover (d : ℕ) (ticker_date_sets : List (List ℕ)) : ℕ :=
  (ticker_date_sets.filter (fun s => decide (d ∈ s))).length

/-- Model of the `common_dates` comprehension (lines 370-373): the sorted
calendar dates `d` with `countCover d ≥ max(1, n_tickers // 2)` (`//` is
floor division, as is `/` on `ℕ`). -/
def buildCommonDates (calendar : List ℕ) (ticker_date_sets : List (List ℕ)) : List ℕ :=
  sortNat (calendar.filter
    (fun d => decide (max 1 (ticker_date_sets.length / 2) ≤ countCover d ticker_date_sets)))

/-- Model of the config date-range filter (lines 383-391): keep dates
`≥ start_date` and `≤ end_date` when given; when `days` is set (truthy)
and `start_date` is not, keep only the last `days` dates. -/
def filterDateRange (ds : List ℕ) (sd ed : Option ℕ) (days : Option ℕ) : List ℕ :=
  let ds1 := match sd with
    | some s => ds.filter (fun d => decide (s ≤ d))
    | none => ds
  let ds2 := match ed with
    | some e => ds1.filter (fun d => decide (d ≤ e))
    | none => ds1
  match days, sd with
  | some k, none => if 0 < k ∧ k < ds2.length then ds2.drop (ds2.length - k) else ds2
  | _, _ => ds2

/-- The `common_dates` list `DataProvider.load` retains (lines 366-394):
threshold construction followed by the config range filter. -/
def DataProvider.common_dates (calendar : List ℕ) (ticker_date_sets : List (List ℕ))
    (sd ed days : Option ℕ) : List ℕ :=
  filterDateRange (buildCommonDates calendar ticker_date_sets) sd ed days

/-! ## validate_returns (portfolio_backtester.py lines 1072-1137)

The return matrix enters as one `(ticker, column)` pair per instrument,
a column being its list of cells (`none` = NaN, dropped by `.dropna()`).
The function only reads the matrix — it returns the flag map and a textual
log (the log strings and the `close_matrix` forensics are not modelled) —
so in this pure embedding "no clipping" is the fact that flagged events
are exactly the original column entries, proved below. -/

/-- ABSURD_DAILY_RETURN (line 1072): flag threshold, do NOT clip. -/
def ABSURD_DAILY_RETURN : ℚ := 50 / 100

/-- ABSURD_MAX_EVENTS (line 1074): tickers with more absurd days than this
are dropped entirely. -/
def ABSURD_MAX_EVENTS : ℕ := 3

/-- The absurd events of one column: the non-NaN returns with
`|r| > ABSURD_DAILY_RETURN` (lines 1095-1096). -/
def absurdEvents (col : List (Option ℚ)) : List ℚ :=
  (col.filterMap id).filter (fun r => decide (ABSURD_DAILY_RETURN < |r|))

/-- Model of `validate_returns` (lines 1077-1137): the `flagged` mapping —
tickers whose absurd-event count exceeds `ABSURD_MAX_EVENTS`, with their
events.  Tickers with fewer events land in the local `warned` dict, which
is logged but not returned: they stay in the panel. -/
def validate_returns (return_matrix : List (ℕ × List (Option ℚ))) : List (ℕ × List ℚ) :=
  return_matrix.filterMap (fun p =>
    let events := absurdEvents p.2
    if ABSURD_MAX_EVENTS < events.length then some (p.1, events) else none)

/-! ## compute_metrics (portfolio_backtester.py lines 1140-1195)

Returns are exact rationals (the claims restrict inputs to finite floats;
`np.nan_to_num` is then the identity).  The `assert np.all(equity > 0)`
(lines 1157-1158) is the `Except.error` branch.  The fields driven by
`np.std`/fractional powers (`cagr`, `vol`, `sharpe`, `sortino`, `calmar`)
are real-valued aggregates no claim touches and are left out of the
record; every retained field is computed exactly as the source line does,
including the final `round(..., k)` calls (lines 1182-1194). -/

/-- Round-half-to-even to an integer, Python's `round(q)`. `round` on `ℚ`
in Mathlib is round-half-up, which agrees off ties. -/
def rhe (q : ℚ) : ℤ :=
  if q - (⌊q⌋ : ℚ) = 1 / 2 then (if 2 ∣ ⌊q⌋ then ⌊q⌋ else ⌊q⌋ + 1) else round q

/-- Python's `round(q, k)`. -/
def roundTo (k : ℕ) (q : ℚ) : ℚ := ((rhe (q * 10 ^ k) : ℤ) : ℚ) / 10 ^ k

/-- Running product `np.cumprod(1.0 + rets)` with accumulator `c`:
`equity[t] = equity[t-1] * (1 + rets[t])`, `equity[-1]` seeded at 1. -/
def cumprod1p : ℚ → List ℚ → List ℚ
  | _, [] => []
  | c, r :: rs => (c * (1 + r)) :: cumprod1p (c * (1 + r)) rs

/-- Drawdown series from a running maximum `m`:
`(equity - running_max) / running_max` (lines 1177-1178). -/
def drawdownsFrom : ℚ → List ℚ → List ℚ
  | _, [] => []
  | m, e :: es => ((e - max m e) / max m e) :: drawdownsFrom (max m e) es

/-- Minimum of a list, 0 for an empty one (`np.min` is only applied to the
non-empty drawdown series). -/
def listMin : List ℚ → ℚ
  | [] => 0
  | x :: xs => xs.foldl min x

/-- The `max_dd` value (line 1179): minimum drawdown over the equity curve. -/
def maxDrawdownOf (equity : List ℚ) : ℚ :=
  match equity with
  | [] => 0
  | e :: es => listMin (drawdownsFrom e (e :: es))

/-- The fields of the `compute_metrics` result dict that the claims read
(see the section comment for the omitted real-valued aggregates). -/
structure Metrics where
  equity_start : ℚ
  equity_end : ℚ
  total_return_pct : ℚ
  max_dd : ℚ
  n_days : ℕ
  equity_curve : List ℚ
deriving DecidableEq

/-- Model of `compute_metrics` (lines 1140-1195). -/
def compute_metrics (daily_returns : List ℚ) : Except String Metrics :=
  let n := daily_returns.length
  if n < 2 then
    Except.ok { equity_start := 1, equity_end := 1, total_return_pct := 0,
                max_dd := 0, n_days := 0, equity_curve := [] }
  else
    let equity := cumprod1p 1 daily_returns
    if equity.all (fun e => decide (0 < e)) then
      let equity_end := equity.getLastD 1
      let total_return_pct := (equity_end - 1) * 100
      Except.ok { equity_start := roundTo 6 1,
                  equity_end := roundTo 6 equity_end,
                  total_return_pct := roundTo 4 total_return_pct,
                  max_dd := roundTo 6 (maxDrawdownOf equity),
                  n_days := n,
                  equity_curve := equity.map (roundTo 6) }
    else Except.error "AssertionError: negative equity detected"

/-! ## PortfolioEngine (portfolio_backtester.py lines 725-818)

A signal row is a `(ticker, predicted_return)` pair.  The `vol_target`
weighting mode (`_vol_target_weight`, lines 775-806) computes trailing
standard deviations and a square root — real-valued kernels — so under
that mode the pre-cap weight map enters as an explicit function parameter
`volWeightFn` of `construct`; the `equal` mode's `_equal_weight` is
embedded concretely.  Both flow into `_cap_weights`, which is embedded
exactly and is the subject of the cap claim.  `sort_values` on
`predicted_return` descending is a sort whose tie order pandas does not
специfy; a stable insertion sort stands in for it (no claim depends on tie
order). -/

/-- One row of `signals_by_date[date]`: ticker and predicted return. -/
structure Sig where
  ticker : ℕ
  predicted_return : ℚ
deriving DecidableEq

/-- The `weighting` config values `construct` dispatches on (line 754-761). -/
inductive Weighting where
  | equal : Weighting
  | vol_target : Weighting
deriving DecidableEq

/-- Insert a signal into a list sorted by descending predicted return. -/
def insertDesc (x : Sig) : List Sig → List Sig
  | [] => [x]
  | y :: ys =>
      if y.predicted_return ≤ x.predicted_return then x :: y :: ys else y :: insertDesc x ys

/-- Model of `signals_at_date.sort_values("predicted_return", ascending=False)`. -/
def sortDesc : List Sig → List Sig
  | [] => []
  | x :: xs => insertDesc x (sortDesc xs)

/-- A weight mapping `ticker -> signed fraction of capital` (a Python dict
in insertion order). -/
abbrev WMap := List (ℕ × ℚ)

/-- Model of `PortfolioEngine._equal_weight` (lines 765-773): longs get
`+1/n`, shorts `-1/n`, `n` the number of selected tickers. -/
def PortfolioEngine.equal_weight (long_tickers short_tickers : List ℕ) : WMap :=
  let n : ℚ := ((long_tickers.length + short_tickers.length : ℕ) : ℚ)
  long_tickers.map (fun t => (t, 1 / n)) ++ short_tickers.map (fun t => (t, -(1 / n)))

/-- Model of `PortfolioEngine._cap_weights` (lines 808-818): clamp each
weight to `[-max_weight, max_weight]`, then if the gross exposure exceeds
`max_leverage`, rescale every weight by `max_leverage / gross`. -/
def PortfolioEngine.cap_weights (weights : WMap) (max_weight max_leverage : ℚ) : WMap :=
  if weights = [] then weights
  else
    let clamped := weights.map (fun p => (p.1, max (-max_weight) (min max_weight p.2)))
    let gross := (clamped.map (fun p => |p.2|)).sum
    if max_leverage < gross ∧ 0 < gross then
      clamped.map (fun p => (p.1, p.2 * (max_leverage / gross)))
    else clamped

/-- Model of `PortfolioEngine.construct` (lines 733-763): rank by
predicted return, take `top_k` longs and `bottom_k` shorts (clamped to the
available count, shorts deduplicated against longs), dispatch on the
weighting mode, then apply `_cap_weights`. -/
def PortfolioEngine.construct (mode : Weighting) (volWeightFn : List ℕ → List ℕ → WMap)
    (signals_at_date : List Sig) (top_k bottom_k : ℕ) (max_weight max_leverage : ℚ) : WMap :=
  if signals_at_date = [] then []
  else
    let ranked := sortDesc signals_at_date
    let avail := ranked.length
    let eff_top_k := min top_k avail
    let eff_bottom_k := min bottom_k (max 0 (avail - eff_top_k))
    let long_tickers := (ranked.take eff_top_k).map Sig.ticker
    let short_tickers0 :=
      if 0 < eff_bottom_k then (ranked.drop (avail - eff_bottom_k)).map Sig.ticker else []
    let short_tickers := short_tickers0.filter (fun t => decide (t ∉ long_tickers))
    let selected := long_tickers ++ short_tickers
    if selected = [] then []
    else
      let weights := match mode with
        | Weighting.equal => PortfolioEngine.equal_weight long_tickers short_tickers
        | Weighting.vol_target => volWeightFn long_tickers short_tickers
      PortfolioEngine.cap_weights weights max_weight max_leverage

/-! ## ExecutionSimulator (portfolio_backtester.py lines 825-928)

Inputs of `run` are abstracted as follows: `retM d t` is
`return_matrix.loc[d, t]` (`none` when the date is not in the index, the
ticker not in the columns, or the cell NaN — the three guards of lines
896-900); `sig d` is `signals_by_date.get(d)`; `constructW s d` is
`portfolio_engine.construct(s, cfg, d)`; `cost_rate` is
`(cost_bps + slippage_bps) / 10000`.  `clock.advance_to` never raises on
the sorted date sequence (it is non-decreasing and the clock accepts equal
dates), so the clock does not appear in the state.  The final turnover
verification loop (lines 913-916) is `verifyTurnover`. -/

/-- Python's `weights.get(t, 0)`. -/
def wget (m : WMap) (t : ℕ) : ℚ := (m.lookup t).getD 0

/-- Python's `set(list(old) + list(new))` key union (line 870). -/
def unionKeys (old new : WMap) : List ℕ := (old.map Prod.fst ++ new.map Prod.fst).dedup

/-- Turnover as the L1 weight change over the key union (lines 871-872). -/
def turnoverOf (old new : WMap) : ℚ :=
  ((unionKeys old new).map (fun t => |wget new t - wget old t|)).sum

/-- Daily gross return `Σ w·r` over the current weight map, NaN and
missing cells contributing zero (lines 895-901). -/
def dayGross (retM : ℕ → ℕ → Option ℚ) (w : WMap) (d : ℕ) : ℚ :=
  (w.map (fun p => match retM d p.1 with
    | some r => p.2 * r
    | none => 0)).sum

/-- Dict write `turnover_by_date[date] = tv` (replace or append). -/
def dictInsert (m : List (ℕ × ℚ)) (k : ℕ) (v : ℚ) : List (ℕ × ℚ) :=
  if m.any (fun p => p.1 == k) then m.map (fun p => if p.1 == k then (k, v) else p)
  else m ++ [(k, v)]

/-- Set insert `rebalance_trade_dates.add(date)`. -/
def setInsert (s : List ℕ) (d : ℕ) : List ℕ := if d ∈ s then s else s ++ [d]

/-- One entry of the per-day output lists: date, gross return, net return,
holdings count (lines 889-892 and 903-911). -/
structure DayRec where
  date : ℕ
  grossRet : ℚ
  netRet : ℚ
  holdings : ℕ
deriving DecidableEq

/-- The simulator's loop state: `current_weights`, `pending_new_weights`,
`pending_rebalance`, `turnover_by_date`, `rebalance_trade_dates`. -/
structure SimState where
  cur : WMap
  pending : Option WMap
  pendingReb : Bool
  tbd : List (ℕ × ℚ)
  rtd : List ℕ
deriving DecidableEq

/-- The state before any day is processed (lines 850-859). -/
def initState : SimState := { cur := [], pending := none, pendingReb := false, tbd := [], rtd := [] }

/-- One iteration of the daily loop of `ExecutionSimulator.run`
(lines 861-911): apply pending weights from the previous signal date
(recording turnover and flagging a rebalance-trade day), stash today's
signal as pending for tomorrow, then compute today's return with the
weights current before today's signal. -/
def ExecutionSimulator.step (retM : ℕ → ℕ → Option ℚ) (sig : ℕ → Option (List Sig))
    (constructW : List Sig → ℕ → WMap) (cost_rate : ℚ) (i : ℕ) (d : ℕ) (st : SimState) :
    DayRec × SimState :=
  let st1 :=
    match st.pendingReb, st.pending with
    | true, some w =>
        { cur := w, pending := none, pendingReb := false,
          tbd := dictInsert st.tbd d (turnoverOf st.cur w),
          rtd := setInsert st.rtd d }
    | _, _ => st
  let st2 :=
    match sig d with
    | some s => { st1 with pending := some (constructW s d), pendingReb := true }
    | none => st1
  if i = 0 ∨ st2.cur = [] then
    ({ date := d, grossRet := 0, netRet := 0, holdings := st2.cur.length }, st2)
  else
    let g := dayGross retM st2.cur d
    let cost :=
      if d ∈ st2.rtd then (match st2.tbd.lookup d with | some tv => tv | none => 0) * cost_rate
      else 0
    ({ date := d, grossRet := g, netRet := g - cost, holdings := st2.cur.length }, st2)

/-- The daily loop over the (sorted) out-of-sample dates, `i` the
`enumerate` index. -/
def ExecutionSimulator.runLoop (retM : ℕ → ℕ → Option ℚ) (sig : ℕ → Option (List Sig))
    (constructW : List Sig → ℕ → WMap) (cost_rate : ℚ) :
    List ℕ → ℕ → SimState → List DayRec × SimState
  | [], _, st => ([], st)
  | d :: ds, i, st =>
      let p := ExecutionSimulator.step retM sig constructW cost_rate i d st
      let rest := ExecutionSimulator.runLoop retM sig constructW cost_rate ds (i + 1) p.2
      (p.1 :: rest.1, rest.2)

/-- The post-hoc invariant check of lines 913-916: `LookaheadError` when a
positive turnover is recorded for a date outside `rebalance_trade_dates`. -/
def verifyTurnover (tbd : List (ℕ × ℚ)) (rtd : List ℕ) : Except String Unit :=
  if tbd.all (fun p => decide (p.1 ∈ rtd) || decide (p.2 ≤ 0)) then Except.ok ()
  else Except.error "LookaheadError: turnover on non-rebalance day"

/-- The result dict of `ExecutionSimulator.run` (lines 918-928): the
per-day records carry `daily_dates`, `daily_returns_gross`,
`daily_returns_net` and `holdings_count` slot by slot. -/
structure RunOut where
  recs : List DayRec
  tbd : List (ℕ × ℚ)
  rtd : List ℕ
  num_rebalances : ℕ
  total_cost : ℚ
deriving DecidableEq

/-- Model of `ExecutionSimulator.run` (lines 837-928). -/
def ExecutionSimulator.run (retM : ℕ → ℕ → Option ℚ) (sig : ℕ → Option (List Sig))
    (constructW : List Sig → ℕ → WMap) (cost_rate : ℚ) (oos_dates : List ℕ) :
    Except String RunOut :=
  let ds := sortNat oos_dates
  let r := ExecutionSimulator.runLoop retM sig constructW cost_rate ds 0 initState
  match verifyTurnover r.2.tbd r.2.rtd with
  | Except.ok _ =>
      Except.ok { recs := r.1, tbd := r.2.tbd, rtd := r.2.rtd,
                  num_rebalances := r.2.rtd.length,
                  total_cost := (r.2.tbd.map (fun p => p.2 * cost_rate)).sum }
  | Except.error e => Except.error e

/-- The weight map in force when a day's return is computed, given the
state at the start of the day: the pending map if one is waiting,
otherwise the current map (the first branch of the loop body). -/
def applyPend (st : SimState) : WMap :=
  match st.pendingReb, st.pending with
  | true, some w => w
  | _, _ => st.cur

/-- The weight map produced by the most recent signal date in `ds`
(starting from `c`): each signal date's constructed weights overwrite the
previous ones.  `lastSigW sig cW [] (ds.take i)` is exactly the map the
simulator holds when it computes day `i`'s return. -/
def lastSigW (sig : ℕ → Option (List Sig)) (constructW : List Sig → ℕ → WMap) :
    WMap → List ℕ → WMap
  | c, [] => c
  | c, d :: ds =>
      lastSigW sig constructW
        (match sig d with | some s => constructW s d | none => c) ds

/-! ## Helper lemmas -/

/-- Monotonicity of the clock through any call sequence: starting set at
`a`, whatever date the clock ends at is `≥ a`. -/
theorem advanceSeq_mono : ∀ (ds : List ℕ) (a b : ℕ),
    SimulationClock.advanceSeq (some a) ds = some b → a ≤ b := by
  intro ds
  induction ds with
  | nil =>
      intro a b h
      simp only [SimulationClock.advanceSeq, Option.some.injEq] at h
      omega
  | cons d ds ih =>
      intro a b h
      simp only [SimulationClock.advanceSeq] at h
      by_cases hd : d < a
      · have hstep : SimulationClock.advanceStep (some a) d = some a := by
          simp [SimulationClock.advanceStep, SimulationClock.advance_to, hd]
        rw [hstep] at h
        exact ih a b h
      · have hstep : SimulationClock.advanceStep (some a) d = some d := by
          simp [SimulationClock.advanceStep, SimulationClock.advance_to, hd]
        rw [hstep] at h
        have := ih d b h
        omega

theorem mem_insertLe (a d : ℕ) (l : List ℕ) : a ∈ insertLe d l ↔ a = d ∨ a ∈ l := by
  induction l with
  | nil => simp [insertLe]
  | cons x xs ih =>
      simp only [insertLe]
      split
      · simp [List.mem_cons]
      · simp only [List.mem_cons, ih]
        tauto

theorem mem_sortNat (a : ℕ) (l : List ℕ) : a ∈ sortNat l ↔ a ∈ l := by
  induction l with
  | nil => simp [sortNat]
  | cons x xs ih => simp [sortNat, mem_insertLe, ih]

/-! ## Claim C2 — monotonic clock -/

/-- C2: for every `SimulationClock` and every `advance_to` sequence the
`as_of_date` is non-decreasing; a call with a strictly earlier date raises
`LookaheadError` and leaves `as_of_date` unchanged, while a call with a
date `≥` the current one (or with no date set yet) sets `as_of_date`. -/
theorem claim_C2 (a d : ℕ) :
    (d < a →
      SimulationClock.advance_to (some a) d = Except.error "LookaheadError: cannot rewind" ∧
      SimulationClock.advanceStep (some a) d = some a) ∧
    (a ≤ d → SimulationClock.advance_to (some a) d = Except.ok (some d)) ∧
    SimulationClock.advance_to none d = Except.ok (some d) ∧
    (∀ (ds : List ℕ) (b : ℕ), SimulationClock.advanceSeq (some a) ds = some b → a ≤ b) := by
  refine ⟨fun h => ⟨?_, ?_⟩, fun h => ?_, ?_, fun ds b h => advanceSeq_mono ds a b h⟩
  · simp [SimulationClock.advance_to, h]
  · simp [SimulationClock.advanceStep, SimulationClock.advance_to, h]
  · simp [SimulationClock.advance_to, Nat.not_lt.mpr h]
  · simp [SimulationClock.advance_to]

/-- C2 witness at concrete inputs: rewinding from 5 to 3 errors and leaves
the clock at 5; advancing from 5 to 7 succeeds; the sequence 5,3,9 from an
unset clock ends at 9 ≥ 5. -/
theorem claim_C2_witness :
    (SimulationClock.advance_to (some 5) 3 = Except.error "LookaheadError: cannot rewind" ∧
      SimulationClock.advanceStep (some 5) 3 = some 5) ∧
    SimulationClock.advance_to (some 5) 7 = Except.ok (some 7) ∧
    SimulationClock.advanceSeq (some 5) [5, 3, 9] = some 9 ∧ 5 ≤ 9 :=
  ⟨(claim_C2 5 3).1 (by decide), (claim_C2 5 7).2.1 (by decide),
    by decide, (claim_C2 5 9).2.2.2 [5, 3, 9] 9 (by decide)⟩

/-! ## Claim C10 — unset clock accepts everything -/

/-- C10: before any `advance_to`, `guard_data_access` accepts every
requested date (however far in the future) and `advance_to` accepts any
first date; once a date is set, strictly later reads are rejected (and
reads at or before the clock accepted). -/
theorem claim_C10 (d a : ℕ) :
    SimulationClock.guard_data_access none d = Except.ok () ∧
    SimulationClock.advance_to none d = Except.ok (some d) ∧
    (a < d →
      SimulationClock.guard_data_access (some a) d =
        Except.error "LookaheadError: data access beyond clock") ∧
    (d ≤ a → SimulationClock.guard_data_access (some a) d = Except.ok ()) := by
  refine ⟨?_, ?_, fun h => ?_, fun h => ?_⟩
  · simp [SimulationClock.guard_data_access]
  · simp [SimulationClock.advance_to]
  · simp [SimulationClock.guard_data_access, h]
  · simp [SimulationClock.guard_data_access, Nat.not_lt.mpr h]

/-- C10 witness: an unset clock accepts a far-future read (date 1000000),
and a clock set at 10 rejects a read at 11 but accepts one at 10. -/
theorem claim_C10_witness :
    SimulationClock.guard_data_access none 1000000 = Except.ok () ∧
    SimulationClock.advance_to none 1000000 = Except.ok (some 1000000) ∧
    SimulationClock.guard_data_access (some 10) 11 =
      Except.error "LookaheadError: data access beyond clock" ∧
    SimulationClock.guard_data_access (some 10) 10 = Except.ok () :=
  ⟨(claim_C10 1000000 0).1, (claim_C10 1000000 0).2.1,
    (claim_C10 11 10).2.2.1 (by decide), (claim_C10 10 10).2.2.2 (by decide)⟩

/-! ## Claim C9 — config hash ignores data_dir and debug -/

/-- C9: `config_hash` is a deterministic function of the configuration
content excluding `data_dir` and `debug`: any two configs agreeing on all
other fields hash identically, whatever the serialisation+SHA-256 function
`H` does — in particular two configs differing only in `data_dir`. -/
theorem claim_C9 (H : List (String × JVal) → String) (c c' : BacktestConfig)
    (h1 : c.tickers = c'.tickers) (h2 : c.start_date = c'.start_date)
    (h3 : c.end_date = c'.end_date) (h4 : c.days = c'.days)
    (h5 : c.forward = c'.forward) (h6 : c.rebalance = c'.rebalance)
    (h7 : c.top_k = c'.top_k) (h8 : c.bottom_k = c'.bottom_k)
    (h9 : c.weighting = c'.weighting) (h10 : c.max_weight = c'.max_weight)
    (h11 : c.max_leverage = c'.max_leverage) (h12 : c.cost_bps = c'.cost_bps)
    (h13 : c.slippage_bps = c'.slippage_bps) (h14 : c.vol_window = c'.vol_window)
    (h15 : c.target_vol_annual = c'.target_vol_annual)
    (h16 : c.model_type = c'.model_type) (h17 : c.seed = c'.seed) :
    BacktestConfig.config_hash H c = BacktestConfig.config_hash H c' := by
  obtain ⟨t, sd, ed, dy, fw, rb, tk, bk, wt, mw, ml, cb, sb, vw, tv, mt, se, dd, db⟩ := c
  obtain ⟨t', sd', ed', dy', fw', rb', tk', bk', wt', mw', ml', cb', sb', vw', tv', mt', se', dd', db'⟩ := c'
  simp only at h1 h2 h3 h4 h5 h6 h7 h8 h9 h10 h11 h12 h13 h14 h15 h16 h17
  subst h1 h2 h3 h4 h5 h6 h7 h8 h9 h10 h11 h12 h13 h14 h15 h16 h17
  rfl

/-- C9 witness: two concrete configs identical except for `data_dir`
(none vs a path) and `debug` hash to the same value under a concrete `H`. -/
theorem claim_C9_witness :
    BacktestConfig.config_hash (fun l => toString l.length)
      { tickers := "mega", start_date := none, end_date := none, days := none,
        forward := 20, rebalance := "W-MON", top_k := 10, bottom_k := 0,
        weighting := "equal", max_weight := 15 / 100, max_leverage := 1,
        cost_bps := 10, slippage_bps := 0, vol_window := 20,
        target_vol_annual := 15 / 100, model_type := "gradient_boost", seed := 42,
        data_dir := none, debug := false } =
    BacktestConfig.config_hash (fun l => toString l.length)
      { tickers := "mega", start_date := none, end_date := none, days := none,
        forward := 20, rebalance := "W-MON", top_k := 10, bottom_k := 0,
        weighting := "equal", max_weight := 15 / 100, max_leverage := 1,
        cost_bps := 10, slippage_bps := 0, vol_window := 20,
        target_vol_annual := 15 / 100, model_type := "gradient_boost", seed := 42,
        data_dir := some "/data/eod_by_symbol", debug := true } := by
  apply claim_C9 <;> rfl

/-! ## Claim C5 — common_dates retention (corrected) -/

/-- Membership extraction for the date-range filter: a retained date was in
the input and satisfies the configured start/end bounds. -/
theorem mem_filterDateRange (ds : List ℕ) (sd ed days : Option ℕ) (d : ℕ)
    (h : d ∈ filterDateRange ds sd ed days) :
    d ∈ ds ∧ (∀ s, sd = some s → s ≤ d) ∧ (∀ e, ed = some e → d ≤ e) := by
  rcases sd with _ | s <;> rcases ed with _ | e <;> rcases days with _ | k <;>
    dsimp only [filterDateRange] at h
  · refine ⟨h, ?_, ?_⟩ <;> (intro x hx; cases hx)
  · have hd : d ∈ ds := by
      split at h
      · exact List.drop_subset _ _ h
      · exact h
    refine ⟨hd, ?_, ?_⟩ <;> (intro x hx; cases hx)
  · simp only [List.mem_filter, decide_eq_true_eq] at h
    refine ⟨h.1, ?_, ?_⟩
    · intro x hx; cases hx
    · intro x hx; cases hx; exact h.2
  · have h' : d ∈ ds.filter (fun d => decide (d ≤ e)) := by
      split at h
      · exact List.drop_subset _ _ h
      · exact h
    simp only [List.mem_filter, decide_eq_true_eq] at h'
    refine ⟨h'.1, ?_, ?_⟩
    · intro x hx; cases hx
    · intro x hx; cases hx; exact h'.2
  · simp only [List.mem_filter, decide_eq_true_eq] at h
    refine ⟨h.1, ?_, ?_⟩
    · intro x hx; cases hx; exact h.2
    · intro x hx; cases hx
  · simp only [List.mem_filter, decide_eq_true_eq] at h
    refine ⟨h.1, ?_, ?_⟩
    · intro x hx; cases hx; exact h.2
    · intro x hx; cases hx
  · simp only [List.mem_filter, decide_eq_true_eq] at h
    refine ⟨h.1.1, ?_, ?_⟩
    · intro x hx; cases hx; exact h.1.2
    · intro x hx; cases hx; exact h.2
  · simp only [List.mem_filter, decide_eq_true_eq] at h
    refine ⟨h.1.1, ?_, ?_⟩
    · intro x hx; cases hx; exact h.1.2
    · intro x hx; cases hx; exact h.2

/-- Completeness of the date-range filter when no day-count truncation is
configured: a date within the bounds is retained. -/
theorem mem_filterDateRange_of (ds : List ℕ) (sd ed : Option ℕ) (d : ℕ)
    (hd : d ∈ ds) (hs : ∀ s, sd = some s → s ≤ d) (he : ∀ e, ed = some e → d ≤ e) :
    d ∈ filterDateRange ds sd ed none := by
  rcases sd with _ | s <;> rcases ed with _ | e <;> dsimp only [filterDateRange]
  · exact hd
  · simp only [List.mem_filter, decide_eq_true_eq]
    exact ⟨hd, he e rfl⟩
  · simp only [List.mem_filter, decide_eq_true_eq]
    exact ⟨hd, hs s rfl⟩
  · simp only [List.mem_filter, decide_eq_true_eq]
    exact ⟨⟨hd, hs s rfl⟩, he e rfl⟩

/-- C5 (amended): every retained date is a calendar date on which at least
`max(1, n // 2)` of the `n` surviving instruments have a non-missing close
(for odd `n` this is one fewer than "at least half"), and lies within the
configured start/end bounds; conversely, when no day-count truncation
applies, every calendar date meeting that threshold and those bounds is
retained. -/
theorem claim_C5 (calendar : List ℕ) (ticker_date_sets : List (List ℕ))
    (sd ed days : Option ℕ) (d : ℕ) :
    (d ∈ DataProvider.common_dates calendar ticker_date_sets sd ed days →
      d ∈ calendar ∧
      max 1 (ticker_date_sets.length / 2) ≤ countCover d ticker_date_sets ∧
      (∀ s, sd = some s → s ≤ d) ∧ (∀ e, ed = some e → d ≤ e)) ∧
    (days = none → d ∈ calendar →
      max 1 (ticker_date_sets.length / 2) ≤ countCover d ticker_date_sets →
      (∀ s, sd = some s → s ≤ d) → (∀ e, ed = some e → d ≤ e) →
      d ∈ DataProvider.common_dates calendar ticker_date_sets sd ed days) := by
  constructor
  · intro h
    unfold DataProvider.common_dates at h
    obtain ⟨hmem, hs, he⟩ := mem_filterDateRange _ _ _ _ _ h
    unfold buildCommonDates at hmem
    rw [mem_sortNat] at hmem
    simp only [List.mem_filter, decide_eq_true_eq] at hmem
    exact ⟨hmem.1, hmem.2, hs, he⟩
  · intro hdays hcal hthr hs he
    subst hdays
    unfold DataProvider.common_dates
    apply mem_filterDateRange_of _ _ _ _ _ hs he
    unfold buildCommonDates
    rw [mem_sortNat]
    simp only [List.mem_filter, decide_eq_true_eq]
    exact ⟨hcal, hthr⟩

/-- C5 counterexample to the claim as stated: with 3 surviving instruments
of which only 1 has data on the calendar date 0 (strictly fewer than half),
the date is nonetheless retained in `common_dates`, because the code's
threshold is `max(1, 3 // 2) = 1`. -/
theorem claim_C5_counterexample :
    DataProvider.common_dates [0] [[0], [], []] none none none = [0] ∧
    2 * countCover 0 [[0], [], []] < 3 := by decide

/-- C5 witness: with 2 surviving instruments both covering date 0 inside a
2-day calendar and no range configured, date 0 is retained (threshold
`max(1, 2 // 2) = 1 ≤ 2`). -/
theorem claim_C5_witness :
    0 ∈ DataProvider.common_dates [0, 1] [[0], [0]] none none none :=
  (claim_C5 [0, 1] [[0], [0]] none none none 0).2 rfl (by decide) (by decide)
    (fun s hs => nomatch hs) (fun e he => nomatch he)

/-! ## Claim C6 — validate_returns flags, never clips -/

/-- Duplicate-free keys determine columns: two rows with the same ticker
in a Nodup-keyed matrix carry the same column. -/
theorem keys_nodup_col_eq :
    ∀ (rm : List (ℕ × List (Option ℚ))) (t : ℕ) (c c' : List (Option ℚ)),
      (rm.map Prod.fst).Nodup → (t, c) ∈ rm → (t, c') ∈ rm → c = c' := by
  intro rm
  induction rm with
  | nil => intro t c c' _ h; cases h
  | cons p ps ih =>
      intro t c c' hnd h1 h2
      simp only [List.map_cons, List.nodup_cons] at hnd
      rcases List.mem_cons.mp h1 with h1 | h1 <;> rcases List.mem_cons.mp h2 with h2 | h2
      · rw [← h1] at h2; exact (Prod.mk.injEq _ _ _ _).mp h2 |>.2.symm ▸ rfl
      · exfalso
        apply hnd.1
        have : p.1 = t := by rw [← h1]
        rw [this]
        exact List.mem_map.mpr ⟨(t, c'), h2, rfl⟩
      · exfalso
        apply hnd.1
        have : p.1 = t := by rw [← h2]
        rw [this]
        exact List.mem_map.mpr ⟨(t, c), h1, rfl⟩
      · exact ih t c c' hnd.2 h1 h2

/-- C6: an instrument whose column has more than `ABSURD_MAX_EVENTS`
returns exceeding `±ABSURD_DAILY_RETURN` is flagged for removal; one with
at most that many is not flagged (hence retained); and the flagged events
are exactly the unmodified absurd entries of the original column — no
return value is altered or clipped. -/
theorem claim_C6 (rm : List (ℕ × List (Option ℚ))) (t : ℕ) (col : List (Option ℚ))
    (hmem : (t, col) ∈ rm) :
    (ABSURD_MAX_EVENTS < (absurdEvents col).length →
      t ∈ (validate_returns rm).map Prod.fst) ∧
    ((rm.map Prod.fst).Nodup → (absurdEvents col).length ≤ ABSURD_MAX_EVENTS →
      t ∉ (validate_returns rm).map Prod.fst) ∧
    (∀ p ∈ validate_returns rm, ∃ col', (p.1, col') ∈ rm ∧ p.2 = absurdEvents col') := by
  refine ⟨?_, ?_, ?_⟩
  · intro hlen
    refine List.mem_map.mpr ⟨(t, absurdEvents col), ?_, rfl⟩
    refine List.mem_filterMap.mpr ⟨(t, col), hmem, ?_⟩
    simp only [if_pos hlen]
  · intro hnd hle hin
    obtain ⟨p, hp, hpt⟩ := List.mem_map.mp hin
    obtain ⟨q, hq, hfq⟩ := List.mem_filterMap.mp hp
    by_cases hq3 : ABSURD_MAX_EVENTS < (absurdEvents q.2).length
    · rw [if_pos hq3] at hfq
      have hq1 : q.1 = t := by
        have := (Option.some.injEq _ _).mp hfq
        rw [← this] at hpt
        exact hpt
      have hcol : q.2 = col := by
        apply keys_nodup_col_eq rm t q.2 col hnd _ hmem
        rw [← hq1]
        exact hq
      rw [hcol] at hq3
      omega
    · rw [if_neg hq3] at hfq
      cases hfq
  · intro p hp
    obtain ⟨q, hq, hfq⟩ := List.mem_filterMap.mp hp
    by_cases hq3 : ABSURD_MAX_EVENTS < (absurdEvents q.2).length
    · rw [if_pos hq3] at hfq
      have := (Option.some.injEq _ _).mp hfq
      refine ⟨q.2, ?_, ?_⟩
      · rw [← this]
        exact hq
      · rw [← this]
    · rw [if_neg hq3] at hfq
      cases hfq

/-- C6 witness: ticker 1 with 5 returns of +100 percent (5 > 3 absurd
days) is flagged; ticker 2 with a single such day is not flagged. -/
theorem claim_C6_witness :
    (1 : ℕ) ∈ (validate_returns
        [(1, [some 1, some 1, some 1, some 1, some 1]), (2, [some 1, some 0])]).map Prod.fst ∧
    (2 : ℕ) ∉ (validate_returns
        [(1, [some 1, some 1, some 1, some 1, some 1]), (2, [some 1, some 0])]).map Prod.fst :=
  ⟨(claim_C6 _ 1 [some 1, some 1, some 1, some 1, some 1] (by norm_num)).1
      (by norm_num [absurdEvents, ABSURD_DAILY_RETURN, ABSURD_MAX_EVENTS,
        List.filterMap_cons, List.filter]),
   (claim_C6 _ 2 [some 1, some 0] (by norm_num)).2.1
      (by norm_num)
      (by norm_num [absurdEvents, ABSURD_DAILY_RETURN, ABSURD_MAX_EVENTS,
        List.filterMap_cons, List.filter])⟩

/-! ## Claim C4 — weight and leverage caps -/

/-- A clamped weight has magnitude at most the (nonnegative) cap. -/
theorem abs_clamp_le (mw w : ℚ) (h : 0 ≤ mw) : |max (-mw) (min mw w)| ≤ mw := by
  rw [abs_le]
  constructor
  · exact le_max_left _ _
  · exact max_le (by linarith) (min_le_left _ _)

/-- Scaling every weight by `c` scales the gross exposure by `|c|`. -/
theorem sum_map_abs_scale (l : WMap) (c : ℚ) :
    ((l.map (fun p => (p.1, p.2 * c))).map (fun p => |p.2|)).sum =
      |c| * ((l.map (fun p => |p.2|)).sum) := by
  induction l with
  | nil => simp
  | cons x xs ih =>
      simp only [List.map_cons, List.sum_cons, ih, abs_mul]
      ring

/-- Scaling by a nonnegative `c` scales the gross exposure by `c`. -/
theorem sum_map_abs_scale_nonneg (l : WMap) (c : ℚ) (hc : 0 ≤ c) :
    ((l.map (fun p => (p.1, p.2 * c))).map (fun p => |p.2|)).sum =
      c * ((l.map (fun p => |p.2|)).sum) := by
  rw [sum_map_abs_scale, abs_of_nonneg hc]

/-- Every weight surviving `_cap_weights` has magnitude at most `max_weight`. -/
theorem cap_weights_abs_le (w : WMap) (mw ml : ℚ) (hmw : 0 ≤ mw) (hml : 0 < ml) :
    ∀ p ∈ PortfolioEngine.cap_weights w mw ml, |p.2| ≤ mw := by
  intro p hp
  simp only [PortfolioEngine.cap_weights] at hp
  split at hp
  · rename_i hw
    rw [hw] at hp
    cases hp
  · split at hp
    · rename_i hre
      obtain ⟨q, hq, rfl⟩ := List.mem_map.mp hp
      obtain ⟨q0, _, rfl⟩ := List.mem_map.mp hq
      have h1 : |max (-mw) (min mw q0.2)| ≤ mw := abs_clamp_le mw q0.2 hmw
      have hfac : 0 ≤ ml / ((w.map (fun p => (p.1, max (-mw) (min mw p.2)))).map
          (fun p => |p.2|)).sum := le_of_lt (div_pos hml hre.2)
      have hfac1 : ml / ((w.map (fun p => (p.1, max (-mw) (min mw p.2)))).map
          (fun p => |p.2|)).sum ≤ 1 := by
        rw [div_le_one hre.2]
        exact le_of_lt hre.1
      calc |(max (-mw) (min mw q0.2)) * (ml / ((w.map (fun p => (p.1, max (-mw) (min mw p.2)))).map
              (fun p => |p.2|)).sum)|
          = |max (-mw) (min mw q0.2)| * |ml / ((w.map (fun p => (p.1, max (-mw) (min mw p.2)))).map
              (fun p => |p.2|)).sum| := abs_mul _ _
        _ ≤ |max (-mw) (min mw q0.2)| * 1 := by
            apply mul_le_mul_of_nonneg_left _ (abs_nonneg _)
            rw [abs_of_nonneg hfac]
            exact hfac1
        _ = |max (-mw) (min mw q0.2)| := mul_one _
        _ ≤ mw := h1
    · obtain ⟨q0, _, rfl⟩ := List.mem_map.mp hp
      exact abs_clamp_le mw q0.2 hmw

/-- The gross exposure after `_cap_weights` is at most `max_leverage`. -/
theorem cap_weights_gross_le (w : WMap) (mw ml : ℚ) (hml : 0 < ml) :
    ((PortfolioEngine.cap_weights w mw ml).map (fun p => |p.2|)).sum ≤ ml := by
  simp only [PortfolioEngine.cap_weights]
  split
  · rename_i hw
    rw [hw]
    simp
    linarith
  · split
    · rename_i hre
      rw [sum_map_abs_scale_nonneg _ _ (le_of_lt (div_pos hml hre.2))]
      rw [div_mul_cancel₀ ml (ne_of_gt hre.2)]
    · rename_i hre
      have hS0 : 0 ≤ ((w.map (fun p => (p.1, max (-mw) (min mw p.2)))).map
          (fun p => |p.2|)).sum := by
        apply List.sum_nonneg
        intro x hx
        obtain ⟨q, _, rfl⟩ := List.mem_map.mp hx
        exact abs_nonneg _
      rcases lt_or_le ml (((w.map (fun p => (p.1, max (-mw) (min mw p.2)))).map
          (fun p => |p.2|)).sum) with hlt | hle
      · exact absurd ⟨hlt, lt_trans hml hlt⟩ hre
      · exact hle

/-- C4: under either weighting mode (the `vol_target` pre-cap weights
being an arbitrary function), with positive caps, every weight returned by
`construct` satisfies `|w| ≤ max_weight` and the gross exposure satisfies
`Σ|w| ≤ max_leverage` — exactly, since the model is over `ℚ`. -/
theorem claim_C4 (mode : Weighting) (volWeightFn : List ℕ → List ℕ → WMap)
    (signals_at_date : List Sig) (top_k bottom_k : ℕ) (max_weight max_leverage : ℚ)
    (hmw : 0 < max_weight) (hml : 0 < max_leverage) :
    (∀ p ∈ PortfolioEngine.construct mode volWeightFn signals_at_date top_k bottom_k
        max_weight max_leverage, |p.2| ≤ max_weight) ∧
    ((PortfolioEngine.construct mode volWeightFn signals_at_date top_k bottom_k
        max_weight max_leverage).map (fun p => |p.2|)).sum ≤ max_leverage := by
  constructor
  · intro p hp
    simp only [PortfolioEngine.construct] at hp
    split at hp
    · cases hp
    · split at hp <;> split at hp <;>
        first
          | cases hp
          | exact cap_weights_abs_le _ _ _ (le_of_lt hmw) hml p hp
  · simp only [PortfolioEngine.construct]
    split
    · simp only [List.map_nil, List.sum_nil]
      exact le_of_lt hml
    · split <;> split <;>
        first
          | (simp only [List.map_nil, List.sum_nil]; exact le_of_lt hml)
          | exact cap_weights_gross_le _ _ _ hml

/-- C4 witness: a concrete two-signal equal-weight construction with
`max_weight = 15/100` and `max_leverage = 1` obeys both caps. -/
theorem claim_C4_witness :
    ((0 : ℚ) < 15 / 100 ∧ (0 : ℚ) < 1) ∧
    (∀ p ∈ PortfolioEngine.construct Weighting.equal (fun _ _ => [])
        [⟨1, 1 / 10⟩, ⟨2, -(1 / 10)⟩] 1 1 (15 / 100) 1, |p.2| ≤ 15 / 100) ∧
    ((PortfolioEngine.construct Weighting.equal (fun _ _ => [])
        [⟨1, 1 / 10⟩, ⟨2, -(1 / 10)⟩] 1 1 (15 / 100) 1).map (fun p => |p.2|)).sum ≤ 1 :=
  ⟨⟨by norm_num, by norm_num⟩,
    (claim_C4 Weighting.equal (fun _ _ => []) [⟨1, 1 / 10⟩, ⟨2, -(1 / 10)⟩] 1 1 (15 / 100) 1
      (by norm_num) (by norm_num)).1,
    (claim_C4 Weighting.equal (fun _ _ => []) [⟨1, 1 / 10⟩, ⟨2, -(1 / 10)⟩] 1 1 (15 / 100) 1
      (by norm_num) (by norm_num)).2⟩

/-! ## Claims C7 / C8 — compute_metrics identities and positivity -/

/-- Round-half-to-even commutes with adding an even integer. -/
theorem rhe_add_even (q : ℚ) (n : ℤ) (hn : 2 ∣ n) : rhe (q + (n : ℚ)) = rhe q + n := by
  unfold rhe
  rw [Int.floor_add_int]
  have hfrac : q + (n : ℚ) - ((⌊q⌋ + n : ℤ) : ℚ) = q - ((⌊q⌋ : ℤ) : ℚ) := by
    push_cast
    ring
  rw [hfrac]
  split_ifs with h1 h2 h3 <;>
    first
      | omega
      | exact round_add_int q n

/-- The rounding identity behind C7: rounding `total_return_pct` to 4
decimals and `equity_end` to 6 decimals preserves
`total = (equity_end - 1) * 100` exactly, because
`100 * 10^4 = 10^6` and `rhe` commutes with the even shift `10^6`. -/
theorem roundTo_total_eq (E : ℚ) :
    roundTo 4 ((E - 1) * 100) = (roundTo 6 E - 1) * 100 := by
  have h1 : E * 10 ^ 6 = (E - 1) * 100 * 10 ^ 4 + ((10 ^ 6 : ℤ) : ℚ) := by
    push_cast
    ring
  have h2 : rhe (E * 10 ^ 6) = rhe ((E - 1) * 100 * 10 ^ 4) + 10 ^ 6 := by
    rw [h1]
    exact rhe_add_even _ _ (by norm_num)
  unfold roundTo
  rw [h2]
  push_cast
  field_simp
  ring

/-- The last element of a mapped nonempty list is the image of the last
element. -/
theorem getLastD_map_ne_nil (f : ℚ → ℚ) :
    ∀ (l : List ℚ), l ≠ [] → ∀ (d d' : ℚ), (l.map f).getLastD d' = f (l.getLastD d) := by
  intro l
  induction l with
  | nil => intro h; exact absurd rfl h
  | cons x xs ih =>
      intro _ d d'
      cases xs with
      | nil => simp
      | cons y ys =>
          simp only [List.map_cons, List.getLastD_cons]
          simp

/-- Length of the running product equals the input length. -/
theorem cumprod1p_length (l : List ℚ) : ∀ (c : ℚ), (cumprod1p c l).length = l.length := by
  induction l with
  | nil => intro c; rfl
  | cons r rs ih => intro c; simp [cumprod1p, ih]

/-- C7: whenever `compute_metrics` returns on a series of length ≥ 2, the
returned fields satisfy `total_return_pct = (equity_end - 1) * 100`, and
the returned `equity_end` is the last value of the returned equity curve,
which is the (rounded) running product of `1 + r`. -/
theorem claim_C7 (rets : List ℚ) (m : Metrics) (hlen : 2 ≤ rets.length)
    (h : compute_metrics rets = Except.ok m) :
    m.total_return_pct = (m.equity_end - 1) * 100 ∧
    m.equity_end = m.equity_curve.getLastD 1 ∧
    m.equity_curve = (cumprod1p 1 rets).map (roundTo 6) := by
  simp only [compute_metrics] at h
  rw [if_neg (by omega)] at h
  split at h
  · have hm := (Except.ok.injEq _ _).mp h
    subst hm
    refine ⟨roundTo_total_eq _, ?_, rfl⟩
    have hne : cumprod1p 1 rets ≠ [] := by
      intro hcon
      have := cumprod1p_length rets 1
      rw [hcon] at this
      simp at this
      omega
    exact (getLastD_map_ne_nil (roundTo 6) (cumprod1p 1 rets) hne 1 1).symm
  · cases h

/-- C8 counterexample to the claim as stated: the finite daily return −1
(a −100 percent day) drives the equity to 0, the curve is not strictly
positive, and `compute_metrics` raises its assertion instead of returning. -/
theorem claim_C8_counterexample :
    compute_metrics [(-1 : ℚ), 1 / 10] = Except.error "AssertionError: negative equity detected" ∧
    ¬ (∀ e ∈ cumprod1p 1 [(-1 : ℚ), 1 / 10], 0 < e) := by
  constructor
  · norm_num [compute_metrics, cumprod1p, List.all]
  · intro hpos
    have h0 : (0 : ℚ) ∈ cumprod1p 1 [(-1 : ℚ), 1 / 10] := by
      norm_num [cumprod1p]
    exact absurd (hpos 0 h0) (by norm_num)

/-- Positivity of the running product when every factor is positive. -/
theorem cumprod1p_pos (l : List ℚ) :
    ∀ (c : ℚ), 0 < c → (∀ r ∈ l, -1 < r) → ∀ e ∈ cumprod1p c l, 0 < e := by
  induction l with
  | nil => intro c _ _ e he; cases he
  | cons r rs ih =>
      intro c hc hl e he
      have hr : (0 : ℚ) < 1 + r := by
        have := hl r (List.mem_cons_self r rs)
        linarith
      have hcr : 0 < c * (1 + r) := mul_pos hc hr
      rcases List.mem_cons.mp he with he | he
      · rw [he]; exact hcr
      · exact ih (c * (1 + r)) hcr (fun x hx => hl x (List.mem_cons_of_mem r hx)) e he

/-- C8 (amended): for every return series whose entries are all finite and
strictly greater than −1 (so each factor `1 + r` is positive), the equity
curve is strictly positive at every day and `compute_metrics` returns
normally.  (The claim as stated, for all finite entries, is refuted by the
counterexample: a finite return ≤ −1 zeroes or negates the equity and the
assertion fires.) -/
theorem claim_C8 (rets : List ℚ) (h : ∀ r ∈ rets, -1 < r) :
    (∀ e ∈ cumprod1p 1 rets, 0 < e) ∧ ∃ m, compute_metrics rets = Except.ok m := by
  have hpos : ∀ e ∈ cumprod1p 1 rets, 0 < e := cumprod1p_pos rets 1 one_pos h
  refine ⟨hpos, ?_⟩
  simp only [compute_metrics]
  by_cases hlen : rets.length < 2
  · rw [if_pos hlen]
    exact ⟨_, rfl⟩
  · rw [if_neg hlen]
    have hall : (cumprod1p 1 rets).all (fun e => decide (0 < e)) = true :=
      List.all_eq_true.mpr (fun e he => decide_eq_true (hpos e he))
    rw [if_pos hall]
    exact ⟨_, rfl⟩

/-- C8 witness: the series `[1/10, −1/2]` has all entries above −1; the
equity curve is positive throughout and `compute_metrics` succeeds. -/
theorem claim_C8_witness :
    (∀ r ∈ [(1 : ℚ) / 10, -(1 / 2)], -1 < r) ∧
    ((∀ e ∈ cumprod1p 1 [(1 : ℚ) / 10, -(1 / 2)], 0 < e) ∧
      ∃ m, compute_metrics [(1 : ℚ) / 10, -(1 / 2)] = Except.ok m) :=
  ⟨by norm_num, claim_C8 [(1 : ℚ) / 10, -(1 / 2)] (by norm_num)⟩

/-- C7 witness: two +100 percent days give equity [2, 4]; the returned
`total_return_pct` is 300 = (4 − 1) × 100, and 4 is the last value of the
returned equity curve. -/
theorem claim_C7_witness :
    compute_metrics [(1 : ℚ), 1] =
      Except.ok { equity_start := 1, equity_end := 4, total_return_pct := 300,
                  max_dd := 0, n_days := 2, equity_curve := [2, 4] } ∧
    ((300 : ℚ) = ((4 : ℚ) - 1) * 100 ∧
      (4 : ℚ) = ([2, 4] : List ℚ).getLastD 1 ∧
      ([2, 4] : List ℚ) = (cumprod1p 1 [(1 : ℚ), 1]).map (roundTo 6)) := by
  have hM : compute_metrics [(1 : ℚ), 1] =
      Except.ok { equity_start := 1, equity_end := 4, total_return_pct := 300,
                  max_dd := 0, n_days := 2, equity_curve := [2, 4] } := by
    norm_num [compute_metrics, cumprod1p, roundTo, rhe, round_eq, maxDrawdownOf,
      drawdownsFrom, listMin, List.getLastD, List.all]
  exact ⟨hM, claim_C7 [(1 : ℚ), 1] _ (by norm_num) hM⟩

/-! ## Claim C3 — turnover and costs confined to rebalance-trade days -/

/-- A set insert keeps old members. -/
theorem setInsert_subset (s : List ℕ) (d : ℕ) : s ⊆ setInsert s d := by
  intro x hx
  unfold setInsert
  split
  · exact hx
  · exact List.mem_append_left _ hx

/-- The inserted element belongs to the set. -/
theorem mem_setInsert_self (s : List ℕ) (d : ℕ) : d ∈ setInsert s d := by
  unfold setInsert
  split
  · assumption
  · exact List.mem_append_right _ (List.mem_singleton_self d)

/-- A member of the dict after a write has the written key or was present
before. -/
theorem dictInsert_mem (m : List (ℕ × ℚ)) (k : ℕ) (v : ℚ) :
    ∀ p ∈ dictInsert m k v, p.1 = k ∨ p ∈ m := by
  intro p hp
  unfold dictInsert at hp
  split at hp
  · obtain ⟨q, hq, hpq⟩ := List.mem_map.mp hp
    by_cases hk : q.1 = k
    · rw [if_pos (by simpa using hk)] at hpq
      left
      rw [← hpq]
    · rw [if_neg (by simpa using hk)] at hpq
      right
      rw [← hpq]
      exact hq
  · rcases List.mem_append.mp hp with h | h
    · right; exact h
    · left
      rw [List.mem_singleton.mp h]

/-- Association-list lookup misses when no entry carries the key. -/
theorem lookup_eq_none_of (m : List (ℕ × ℚ)) (d : ℕ) (h : ∀ p ∈ m, p.1 ≠ d) :
    m.lookup d = none := by
  induction m with
  | nil => rfl
  | cons p ps ih =>
      have hne : p.1 ≠ d := h p (List.mem_cons_self p ps)
      have hbeq : (d == p.1) = false := by
        simp [Ne.symm hne]
      simp only [List.lookup, hbeq]
      exact ih (fun q hq => h q (List.mem_cons_of_mem p hq))

/-- The state after one simulator step, independent of the daily-record
branch: pending weights applied (with turnover/rebalance bookkeeping),
then today's signal stashed. -/
theorem step_snd (retM : ℕ → ℕ → Option ℚ) (sig : ℕ → Option (List Sig))
    (constructW : List Sig → ℕ → WMap) (cost_rate : ℚ) (i : ℕ) (d : ℕ) (st : SimState) :
    (ExecutionSimulator.step retM sig constructW cost_rate i d st).2 =
      (match sig d with
        | some s =>
            { (match st.pendingReb, st.pending with
               | true, some w =>
                  ({ cur := w, pending := none, pendingReb := false,
                     tbd := dictInsert st.tbd d (turnoverOf st.cur w),
                     rtd := setInsert st.rtd d } : SimState)
               | _, _ => st) with pending := some (constructW s d), pendingReb := true }
        | none =>
            match st.pendingReb, st.pending with
            | true, some w =>
                ({ cur := w, pending := none, pendingReb := false,
                   tbd := dictInsert st.tbd d (turnoverOf st.cur w),
                   rtd := setInsert st.rtd d } : SimState)
            | _, _ => st) := by
  unfold ExecutionSimulator.step
  rcases hs : sig d with _ | s <;> dsimp only <;> split <;> rfl

/-- The trade-date set only grows along the simulation. -/
theorem runLoop_rtd_mono (retM : ℕ → ℕ → Option ℚ) (sig : ℕ → Option (List Sig))
    (constructW : List Sig → ℕ → WMap) (cost_rate : ℚ) :
    ∀ (ds : List ℕ) (i : ℕ) (st : SimState),
      st.rtd ⊆ (ExecutionSimulator.runLoop retM sig constructW cost_rate ds i st).2.rtd := by
  intro ds
  induction ds with
  | nil => intro i st; exact List.Subset.refl _
  | cons d ds ih =>
      intro i st
      simp only [ExecutionSimulator.runLoop]
      refine List.Subset.trans ?_ (ih (i + 1) _)
      rw [step_snd]
      obtain ⟨cur, pend, preb, tbd, rtd⟩ := st
      rcases hs : sig d with _ | s <;> rcases preb with _ | _ <;> rcases pend with _ | w <;>
        dsimp only <;>
        first
          | exact List.Subset.refl _
          | exact setInsert_subset _ _

/-- Every turnover key recorded by the loop is a flagged rebalance-trade
date, provided that held of the starting state. -/
theorem runLoop_tbd_keys (retM : ℕ → ℕ → Option ℚ) (sig : ℕ → Option (List Sig))
    (constructW : List Sig → ℕ → WMap) (cost_rate : ℚ) :
    ∀ (ds : List ℕ) (i : ℕ) (st : SimState),
      (∀ p ∈ st.tbd, p.1 ∈ st.rtd) →
      ∀ p ∈ (ExecutionSimulator.runLoop retM sig constructW cost_rate ds i st).2.tbd,
        p.1 ∈ (ExecutionSimulator.runLoop retM sig constructW cost_rate ds i st).2.rtd := by
  intro ds
  induction ds with
  | nil => intro i st h; exact h
  | cons d ds ih =>
      intro i st h
      simp only [ExecutionSimulator.runLoop]
      apply ih
      rw [step_snd]
      obtain ⟨cur, pend, preb, tbd, rtd⟩ := st
      rcases hs : sig d with _ | s <;> rcases preb with _ | _ <;> rcases pend with _ | w <;>
        dsimp only at h ⊢ <;>
        first
          | exact h
          | (intro p hp'
             rcases dictInsert_mem _ _ _ p hp' with h1 | h1
             · rw [h1]; exact mem_setInsert_self _ _
             · exact setInsert_subset _ _ (h p h1))

/-- The record a step emits carries the day it processed. -/
theorem step_date (retM : ℕ → ℕ → Option ℚ) (sig : ℕ → Option (List Sig))
    (constructW : List Sig → ℕ → WMap) (cost_rate : ℚ) (i : ℕ) (d : ℕ) (st : SimState) :
    (ExecutionSimulator.step retM sig constructW cost_rate i d st).1.date = d := by
  unfold ExecutionSimulator.step
  dsimp only
  split <;> rfl

/-- When the processed day is not a rebalance-trade day (after the step),
no cost is subtracted: net return equals gross return. -/
theorem step_net (retM : ℕ → ℕ → Option ℚ) (sig : ℕ → Option (List Sig))
    (constructW : List Sig → ℕ → WMap) (cost_rate : ℚ) (i : ℕ) (d : ℕ) (st : SimState)
    (h : d ∉ (ExecutionSimulator.step retM sig constructW cost_rate i d st).2.rtd) :
    (ExecutionSimulator.step retM sig constructW cost_rate i d st).1.netRet =
      (ExecutionSimulator.step retM sig constructW cost_rate i d st).1.grossRet := by
  obtain ⟨cur, pend, preb, tbd, rtd⟩ := st
  rcases hs : sig d with _ | s <;> rcases preb with _ | _ <;> rcases pend with _ | w <;>
    simp only [ExecutionSimulator.step, hs] at h ⊢ <;>
    simp only [apply_ite Prod.snd, apply_ite SimState.rtd, ite_self] at h <;>
    split <;>
    first
      | rfl
      | (dsimp only; ring)

/-- Net equals gross for every record whose date never became a
rebalance-trade day. -/
theorem runLoop_net (retM : ℕ → ℕ → Option ℚ) (sig : ℕ → Option (List Sig))
    (constructW : List Sig → ℕ → WMap) (cost_rate : ℚ) :
    ∀ (ds : List ℕ) (i : ℕ) (st : SimState) (r : DayRec),
      r ∈ (ExecutionSimulator.runLoop retM sig constructW cost_rate ds i st).1 →
      r.date ∉ (ExecutionSimulator.runLoop retM sig constructW cost_rate ds i st).2.rtd →
      r.netRet = r.grossRet := by
  intro ds
  induction ds with
  | nil =>
      intro i st r hr _
      simp only [ExecutionSimulator.runLoop] at hr
      cases hr
  | cons d ds ih =>
      intro i st r hr hnot
      simp only [ExecutionSimulator.runLoop] at hr hnot
      rcases List.mem_cons.mp hr with hr | hr
      · rw [hr] at hnot ⊢
        rw [step_date] at hnot
        have hsub := runLoop_rtd_mono retM sig constructW cost_rate ds (i + 1)
          (ExecutionSimulator.step retM sig constructW cost_rate i d st).2
        exact step_net retM sig constructW cost_rate i d st (fun hmem => hnot (hsub hmem))
      · exact ih (i + 1) _ r hr hnot

/-- C3: the run always passes its final verification and returns; on every
date not flagged as a rebalance-trade day the recorded turnover is absent
(zero), no cost is subtracted, and net return equals gross return; and the
verification raises `LookaheadError` precisely when a positive turnover
sits on a non-rebalance date. -/
theorem claim_C3 :
    (∀ (retM : ℕ → ℕ → Option ℚ) (sig : ℕ → Option (List Sig))
        (constructW : List Sig → ℕ → WMap) (cost_rate : ℚ) (oos_dates : List ℕ),
      ∃ out, ExecutionSimulator.run retM sig constructW cost_rate oos_dates = Except.ok out) ∧
    (∀ (retM : ℕ → ℕ → Option ℚ) (sig : ℕ → Option (List Sig))
        (constructW : List Sig → ℕ → WMap) (cost_rate : ℚ) (oos_dates : List ℕ)
        (out : RunOut),
      ExecutionSimulator.run retM sig constructW cost_rate oos_dates = Except.ok out →
      ∀ d, d ∉ out.rtd →
        out.tbd.lookup d = none ∧
        ∀ r ∈ out.recs, r.date = d → r.netRet = r.grossRet) ∧
    (∀ (tbd : List (ℕ × ℚ)) (rtd : List ℕ),
      (∃ p ∈ tbd, p.1 ∉ rtd ∧ 0 < p.2) →
      verifyTurnover tbd rtd = Except.error "LookaheadError: turnover on non-rebalance day") := by
  have hver : ∀ (retM : ℕ → ℕ → Option ℚ) (sig : ℕ → Option (List Sig))
      (constructW : List Sig → ℕ → WMap) (cost_rate : ℚ) (ds : List ℕ),
      verifyTurnover (ExecutionSimulator.runLoop retM sig constructW cost_rate ds 0 initState).2.tbd
        (ExecutionSimulator.runLoop retM sig constructW cost_rate ds 0 initState).2.rtd =
        Except.ok () := by
    intro retM sig constructW cost_rate ds
    have hkeys := runLoop_tbd_keys retM sig constructW cost_rate ds 0 initState
      (by intro p hp; cases hp)
    unfold verifyTurnover
    rw [if_pos]
    apply List.all_eq_true.mpr
    intro p hp
    simp [hkeys p hp]
  refine ⟨?_, ?_, ?_⟩
  · intro retM sig constructW cost_rate oos_dates
    have h1 := hver retM sig constructW cost_rate (sortNat oos_dates)
    rcases hrun : ExecutionSimulator.run retM sig constructW cost_rate oos_dates with e | out
    · exfalso
      simp only [ExecutionSimulator.run, h1] at hrun
      cases hrun
    · exact ⟨out, rfl⟩
  · intro retM sig constructW cost_rate oos_dates out hrun d hd
    simp only [ExecutionSimulator.run] at hrun
    rw [hver] at hrun
    have hout := (Except.ok.injEq _ _).mp hrun
    subst hout
    constructor
    · apply lookup_eq_none_of
      intro p hp
      have hkeys := runLoop_tbd_keys retM sig constructW cost_rate (sortNat oos_dates) 0 initState
        (by intro q hq; cases hq)
      intro hpd
      apply hd
      rw [← hpd]
      exact hkeys p hp
    · intro r hr hrd
      apply runLoop_net retM sig constructW cost_rate (sortNat oos_dates) 0 initState r hr
      rw [hrd]
      exact hd
  · intro tbd rtd hex
    obtain ⟨p, hp, hnot, hpos⟩ := hex
    unfold verifyTurnover
    rw [if_neg]
    intro hall
    have := List.all_eq_true.mp hall p hp
    simp only [Bool.or_eq_true, decide_eq_true_eq] at this
    rcases this with h | h
    · exact hnot h
    · linarith

/-- C3 witness: the empty run returns successfully with empty bookkeeping
(so date 5 has no turnover, no cost, net = gross vacuously), and a
concrete turnover of 1 on date 3 outside the trade-date set makes the
verification raise `LookaheadError`. -/
theorem claim_C3_witness :
    (∃ out, ExecutionSimulator.run (fun _ _ => none) (fun _ => none) (fun _ _ => []) 0 [] =
      Except.ok out) ∧
    (([] : List (ℕ × ℚ)).lookup 5 = none ∧
      ∀ r ∈ ([] : List DayRec), r.date = 5 → r.netRet = r.grossRet) ∧
    verifyTurnover [(3, 1)] [] =
      Except.error "LookaheadError: turnover on non-rebalance day" := by
  refine ⟨claim_C3.1 (fun _ _ => none) (fun _ => none) (fun _ _ => []) 0 [], ?_, ?_⟩
  · exact claim_C3.2.1 (fun _ _ => none) (fun _ => none) (fun _ _ => []) 0 []
      { recs := [], tbd := [], rtd := [], num_rebalances := 0, total_cost := 0 } rfl 5 (by simp)
  · exact claim_C3.2.2 [(3, 1)] [] ⟨(3, 1), List.mem_singleton_self _, by simp, by norm_num⟩

/-! ## Claim C1 — signal at t trades at t+1 -/

/-- `lastSigW` is a left fold: splitting the date list splits the fold. -/
theorem lastSigW_append (sig : ℕ → Option (List Sig)) (constructW : List Sig → ℕ → WMap) :
    ∀ (xs ys : List ℕ) (c : WMap),
      lastSigW sig constructW c (xs ++ ys) =
        lastSigW sig constructW (lastSigW sig constructW c xs) ys := by
  intro xs
  induction xs with
  | nil => intro ys c; rfl
  | cons x xs ih =>
      intro ys c
      simp only [List.cons_append, lastSigW]
      exact ih ys _

/-- The gross return a step records: zero on the first day or with an
empty weight map, else the dot product of the in-force weights (pending
applied) with the day's returns. -/
theorem step_fst_gross (retM : ℕ → ℕ → Option ℚ) (sig : ℕ → Option (List Sig))
    (constructW : List Sig → ℕ → WMap) (cost_rate : ℚ) (i : ℕ) (d : ℕ) (st : SimState) :
    (ExecutionSimulator.step retM sig constructW cost_rate i d st).1.grossRet =
      (if i = 0 ∨ applyPend st = [] then 0 else dayGross retM (applyPend st) d) := by
  obtain ⟨cur, pend, preb, tbd, rtd⟩ := st
  rcases hs : sig d with _ | s <;> rcases preb with _ | _ <;> rcases pend with _ | w <;>
    simp only [ExecutionSimulator.step, hs, applyPend] <;>
    split <;> rfl

/-- After a step, the weights that will be in force on the next day are
`lastSigW` folded over the single processed date: the day's constructed
weights if it carried a signal, else the weights already in force. -/
theorem step_applyPend_lastSig (retM : ℕ → ℕ → Option ℚ) (sig : ℕ → Option (List Sig))
    (constructW : List Sig → ℕ → WMap) (cost_rate : ℚ) (i : ℕ) (d : ℕ) (st : SimState) :
    applyPend (ExecutionSimulator.step retM sig constructW cost_rate i d st).2 =
      lastSigW sig constructW (applyPend st) [d] := by
  obtain ⟨cur, pend, preb, tbd, rtd⟩ := st
  rcases hs : sig d with _ | s <;> rcases preb with _ | _ <;> rcases pend with _ | w <;>
    simp only [ExecutionSimulator.step, hs, applyPend, lastSigW,
      apply_ite Prod.snd, ite_self]

/-- The flag/pending coupling `pending_rebalance = (pending is not None)`
is preserved by each step. -/
theorem step_inv (retM : ℕ → ℕ → Option ℚ) (sig : ℕ → Option (List Sig))
    (constructW : List Sig → ℕ → WMap) (cost_rate : ℚ) (i : ℕ) (d : ℕ) (st : SimState)
    (hinv : st.pendingReb = st.pending.isSome) :
    (ExecutionSimulator.step retM sig constructW cost_rate i d st).2.pendingReb =
      ((ExecutionSimulator.step retM sig constructW cost_rate i d st).2.pending).isSome := by
  obtain ⟨cur, pend, preb, tbd, rtd⟩ := st
  rcases hs : sig d with _ | s <;> rcases preb with _ | _ <;> rcases pend with _ | w <;>
    simp only [ExecutionSimulator.step, hs, apply_ite Prod.snd, ite_self] <;>
    first
      | rfl
      | (exfalso; simp at hinv)

/-- Core induction for C1: day `j`'s gross return is computed with the
weight map `lastSigW` of the strictly earlier dates — the fold of
"most recent signal's constructed weights" over `ds.take j` seeded with
the weights already in force. -/
theorem runLoop_gross_aux (retM : ℕ → ℕ → Option ℚ) (sig : ℕ → Option (List Sig))
    (constructW : List Sig → ℕ → WMap) (cost_rate : ℚ) :
    ∀ (ds : List ℕ) (i : ℕ) (st : SimState),
      st.pendingReb = st.pending.isSome →
      ∀ (j : ℕ) (rec : DayRec),
        ((ExecutionSimulator.runLoop retM sig constructW cost_rate ds i st).1)[j]? = some rec →
        ds[j]? = some rec.date ∧
        rec.grossRet =
          (if i + j = 0 ∨ lastSigW sig constructW (applyPend st) (ds.take j) = [] then 0
           else dayGross retM (lastSigW sig constructW (applyPend st) (ds.take j)) rec.date) := by
  intro ds
  induction ds with
  | nil =>
      intro i st hinv j rec h
      simp [ExecutionSimulator.runLoop] at h
  | cons d ds ih =>
      intro i st hinv j rec h
      simp only [ExecutionSimulator.runLoop] at h
      rcases j with _ | k
      · simp only [List.getElem?_cons_zero, Option.some.injEq] at h
        subst h
        refine ⟨?_, ?_⟩
        · simp only [List.getElem?_cons_zero, step_date]
        · rw [step_fst_gross, step_date]
          simp only [Nat.add_zero, List.take_zero, lastSigW]
      · simp only [List.getElem?_cons_succ] at h
        have hih := ih (i + 1) _ (step_inv retM sig constructW cost_rate i d st hinv) k rec h
        refine ⟨?_, ?_⟩
        · simp only [List.getElem?_cons_succ]
          exact hih.1
        · rw [hih.2, step_applyPend_lastSig, ← lastSigW_append]
          simp only [List.singleton_append, List.take_succ_cons, Nat.add_succ, Nat.succ_add]

/-- C1: in every run of the daily loop over any out-of-sample date
sequence, day `j`'s gross return is computed with the weight map produced
by the most recent signal at a date strictly before position `j` (empty
map, hence zero return, if none) — so a signal observed on day `j` never
enters day `j`'s own return; and the weights constructed from day `j`'s
signal are exactly the map in force from the next date of the sequence
(the fold over the first `j+1` dates). -/
theorem claim_C1 (retM : ℕ → ℕ → Option ℚ) (sig : ℕ → Option (List Sig))
    (constructW : List Sig → ℕ → WMap) (cost_rate : ℚ) (ds : List ℕ) (j : ℕ) (rec : DayRec)
    (h : ((ExecutionSimulator.runLoop retM sig constructW cost_rate ds 0 initState).1)[j]? =
      some rec) :
    ds[j]? = some rec.date ∧
    rec.grossRet =
      (if j = 0 ∨ lastSigW sig constructW [] (ds.take j) = [] then 0
       else dayGross retM (lastSigW sig constructW [] (ds.take j)) rec.date) ∧
    (∀ s, sig rec.date = some s →
      lastSigW sig constructW [] (ds.take (j + 1)) = constructW s rec.date) := by
  have haux := runLoop_gross_aux retM sig constructW cost_rate ds 0 initState rfl j rec h
  refine ⟨haux.1, ?_, ?_⟩
  · have h2 := haux.2
    simpa [applyPend, initState] using h2
  · intro s hs
    have h1 : ds.take (j + 1) = ds.take j ++ [rec.date] := by
      rw [List.take_succ, haux.1]
      rfl
    rw [h1, lastSigW_append]
    simp [lastSigW, hs]

/-- C1 witness: dates [5, 9] with a signal on day 5 constructing the
weight map [(7, 1)], and a constant 10 percent return.  Day 5 (index 0,
first day) has gross return 0 — the day-5 signal does not trade same-bar —
while day 9 (index 1) is computed with the day-5 weights, and the weights
in force after position 0 are exactly the day-5 construction. -/
theorem claim_C1_witness :
    (([5, 9] : List ℕ)[0]? = some (5 : ℕ) ∧
      (0 : ℚ) =
        (if (0 : ℕ) = 0 ∨ lastSigW (fun d => if d = 5 then some [] else none)
            (fun _ _ => [(7, 1)]) [] (([5, 9] : List ℕ).take 0) = [] then (0 : ℚ)
         else dayGross (fun _ _ => some (1 / 10)) (lastSigW (fun d => if d = 5 then some [] else none)
            (fun _ _ => [(7, 1)]) [] (([5, 9] : List ℕ).take 0)) 5) ∧
      lastSigW (fun d => if d = 5 then some [] else none) (fun _ _ => [(7, 1)]) []
          (([5, 9] : List ℕ).take 1) = [(7, 1)]) ∧
    (([5, 9] : List ℕ)[1]? = some (9 : ℕ) ∧
      (1 / 10 : ℚ) =
        (if (1 : ℕ) = 0 ∨ lastSigW (fun d => if d = 5 then some [] else none)
            (fun _ _ => [(7, 1)]) [] (([5, 9] : List ℕ).take 1) = [] then (0 : ℚ)
         else dayGross (fun _ _ => some (1 / 10)) (lastSigW (fun d => if d = 5 then some [] else none)
            (fun _ _ => [(7, 1)]) [] (([5, 9] : List ℕ).take 1)) 9)) := by
  have h0 : ((ExecutionSimulator.runLoop (fun _ _ => some ((1 : ℚ) / 10))
      (fun d => if d = 5 then some [] else none) (fun _ _ => [(7, 1)]) 0 [5, 9] 0
      initState).1)[0]? = some (⟨5, 0, 0, 0⟩ : DayRec) := by
    norm_num [ExecutionSimulator.runLoop, ExecutionSimulator.step, initState]
  have h1 : ((ExecutionSimulator.runLoop (fun _ _ => some ((1 : ℚ) / 10))
      (fun d => if d = 5 then some [] else none) (fun _ _ => [(7, 1)]) 0 [5, 9] 0
      initState).1)[1]? = some (⟨9, 1 / 10, 1 / 10, 1⟩ : DayRec) := by
    norm_num [ExecutionSimulator.runLoop, ExecutionSimulator.step, initState, dictInsert,
      setInsert, turnoverOf, unionKeys, wget, dayGross, List.lookup, List.dedup]
  have hc0 := claim_C1 (fun _ _ => some ((1 : ℚ) / 10))
    (fun d => if d = 5 then some [] else none) (fun _ _ => [(7, 1)]) 0 [5, 9] 0
    ⟨5, 0, 0, 0⟩ h0
  have hc1 := claim_C1 (fun _ _ => some ((1 : ℚ) / 10))
    (fun d => if d = 5 then some [] else none) (fun _ _ => [(7, 1)]) 0 [5, 9] 1
    ⟨9, 1 / 10, 1 / 10, 1⟩ h1
  exact ⟨⟨hc0.1, hc0.2.1, hc0.2.2 [] (by norm_num)⟩, hc1.1, hc1.2.1⟩
